import Mathlib

/-!
Shallow embedding of the rust_chess board-state core (src/main.rs, src/game.rs):
the bit-index codec, the position codec, the FEN parser and the board renderer.
Rust strings are modelled as `List Char`; Rust byte strings (`&[u8]` obtained by
`as_bytes`) as `List Nat`; `u64` values as `Nat` reduced `% 2^64` where a shift
could overflow; Rust functions that can `panic!` return `Option` (`none` = the
abnormal termination) and fallible `Result`-returning functions return `Except`.
-/

namespace RustChess

/-- `COL_MAP: [char; 8]` from game.rs. -/
def COL_MAP : List Char := ['a', 'b', 'c', 'd', 'e', 'f', 'g', 'h']

/-- `MOD67TABLE: [usize; 67]` from main.rs: the mod-67 perfect-hash table for
single-bit scanning. -/
def MOD67TABLE : List Nat := [
  64, 0, 1, 39, 2, 15, 40, 23,
  3, 12, 16, 59, 41, 19, 24, 54,
  4, 64, 13, 10, 17, 62, 60, 28,
  42, 30, 20, 51, 25, 44, 55, 47,
  5, 32, 64, 38, 14, 22, 11, 58,
  18, 53, 63, 9, 61, 27, 29, 50,
  43, 46, 31, 37, 21, 57, 52, 8,
  26, 49, 45, 36, 56, 7, 48, 35,
  6, 34, 33
]

/-- `bit_scan(bit: u64) -> usize` from main.rs: index the table by `bit % 67`.
The index is always in bounds (`bit % 67 < 67`), so the `getD` default is dead. -/
def bit_scan (bit : Nat) : Nat :=
  MOD67TABLE.getD (bit % 67) 0

/-- `index_to_position(index: usize) -> String` from game.rs:
`format!("{}{}", COL_MAP[index % 8], index / 8 + 1)`. The row number is
rendered in decimal exactly as Rust's `Display` for `usize` does. -/
def index_to_position (index : Nat) : List Char :=
  COL_MAP.getD (index % 8) 'a' :: (toString (index / 8 + 1)).data

/-- `bit_to_position(bit: PiecePosition) -> Result<String, String>` from game.rs. -/
def bit_to_position (bit : Nat) : Except (List Char) (List Char) :=
  if bit = 0 then .error "No piece present!".data
  else .ok (index_to_position (bit_scan bit))

/-- Rust `char::to_digit(10)` on a byte value (`byte as char`): `some (b - 48)`
exactly when the byte is an ASCII decimal digit. -/
def byte_to_digit (b : Nat) : Option Nat :=
  if 48 ≤ b ∧ b ≤ 57 then some (b - 48) else none

/-- The message `format!("Invalid length of position {}", n)`. -/
def invalidLengthMsg (n : Nat) : List Char :=
  "Invalid length of position ".data ++ (toString n).data

/-- The message `format!("Invalid column character {}", b as char)`. -/
def invalidColumnMsg (b : Nat) : List Char :=
  "Invalid column character ".data ++ [Char.ofNat b]

/-- The message `format!("Invalid row character {}", b as char)`. -/
def invalidRowMsg (b : Nat) : List Char :=
  "Invalid row character ".data ++ [Char.ofNat b]

/-- `position_to_bit(position: &str) -> Result<PiecePosition, String>` from
game.rs, over the byte view of the string (`position.as_bytes()`). The two
byte accesses happen inside the branch where the length equals 2, so the
bounds proofs are discharged from the length test itself. -/
def position_to_bit (position : List Nat) : Except (List Char) Nat :=
  if h : position.length = 2 then
    let byte0 := position.get ⟨0, by omega⟩
    if byte0 < 97 ∨ 97 + 8 ≤ byte0 then
      .error (invalidColumnMsg byte0)
    else
      let column := byte0 - 97
      let byte1 := position.get ⟨1, by omega⟩
      match byte_to_digit byte1 with
      | some number =>
        if number < 1 ∨ 8 < number then .error (invalidRowMsg byte1)
        else
          let row := number - 1
          .ok ((1 <<< (row * 8 + column)) % 2 ^ 64)
      | none => .error (invalidRowMsg byte1)
  else
    .error (invalidLengthMsg position.length)

/-- UTF-8 encoding of one scalar value, as Rust's `str::as_bytes` exposes it. -/
def utf8Bytes (c : Char) : List Nat :=
  let n := c.toNat
  if n < 0x80 then [n]
  else if n < 0x800 then
    [0xC0 ||| n >>> 6, 0x80 ||| (n &&& 0x3F)]
  else if n < 0x10000 then
    [0xE0 ||| n >>> 12, 0x80 ||| (n >>> 6 &&& 0x3F), 0x80 ||| (n &&& 0x3F)]
  else
    [0xF0 ||| n >>> 18, 0x80 ||| (n >>> 12 &&& 0x3F),
     0x80 ||| (n >>> 6 &&& 0x3F), 0x80 ||| (n &&& 0x3F)]

/-- The byte view of a string (`str::as_bytes`). -/
def strBytes (s : List Char) : List Nat :=
  (s.map utf8Bytes).flatten

/-- `enum Color` from game.rs. -/
inductive Color where
  | White
  | Black
deriving DecidableEq, Repr

/-- `enum PieceType` from game.rs. -/
inductive PieceType where
  | Pawn
  | Rook
  | Knight
  | Bishop
  | Queen
  | King
deriving DecidableEq, Repr

/-- `struct Piece` from game.rs. -/
structure Piece where
  position : Nat
  color : Color
  piece_type : PieceType
deriving DecidableEq, Repr

/-- `enum Square` from game.rs: empty, or a back-reference index into the
piece list. -/
inductive Square where
  | Empty
  | Occupied (idx : Nat)
deriving DecidableEq, Repr

/-- `struct Game` from game.rs. `castling_rights` is the `bitflags` `u8`:
bit 0 = White kingside, bit 1 = White queenside, bit 2 = Black kingside,
bit 3 = Black queenside; `ALL = 15`. -/
structure Game where
  pieces : List Piece
  squares : List Square
  active_color : Color
  castling_rights : Nat
  en_passant : Option Nat
  halfmove_clock : Nat
  fullmove_number : Nat
deriving DecidableEq, Repr

/-- Rust `char::is_ascii_uppercase`. -/
def isAsciiUpper (c : Char) : Bool :=
  65 ≤ c.toNat ∧ c.toNat ≤ 90

/-- Rust `char::to_ascii_lowercase`. -/
def toAsciiLower (c : Char) : Char :=
  if isAsciiUpper c then Char.ofNat (c.toNat + 32) else c

/-- Rust `char::to_ascii_uppercase` (the per-character effect of
`str::make_ascii_uppercase`). -/
def toAsciiUpper (c : Char) : Char :=
  if 97 ≤ c.toNat ∧ c.toNat ≤ 122 then Char.ofNat (c.toNat - 32) else c

/-- Rust `char::to_digit(10)` on a `Char`. -/
def charToDigit (c : Char) : Option Nat :=
  if 48 ≤ c.toNat ∧ c.toNat ≤ 57 then some (c.toNat - 48) else none

/-- `parse_row(row, piece_index, piece_position)` from game.rs. The Rust
`VecDeque` of squares is modelled as a list whose head is the deque's front:
`push_front` is `cons`, so the square(s) produced by the first character of
the row end up at the BACK of the returned square list (hence the `++ [_]`
and `++ replicate` on the recursive results), while pieces are pushed to the
back of a `Vec` in scan order (hence `cons` on the recursive result). A
character that is neither a piece letter (after `to_ascii_lowercase`) nor a
decimal digit panics, modelled as `none`. The six `add_piece!` arms of the
source's match are factored through `pieceTypeOf`. -/
def pieceTypeOf (c : Char) : Option PieceType :=
  if c = 'r' then some .Rook
  else if c = 'n' then some .Knight
  else if c = 'b' then some .Bishop
  else if c = 'q' then some .Queen
  else if c = 'k' then some .King
  else if c = 'p' then some .Pawn
  else none

def parse_row (row : List Char) (piece_index piece_position : Nat) :
    Option (List Piece × List Square) :=
  match row with
  | [] => some ([], [])
  | ch :: rest =>
    let color := if isAsciiUpper ch then Color.White else Color.Black
    match pieceTypeOf (toAsciiLower ch) with
    | some pt =>
      (parse_row rest (piece_index + 1) (piece_position + 1)).map
        fun pr =>
          (⟨(1 <<< piece_position) % 2 ^ 64, color, pt⟩ :: pr.1,
           pr.2 ++ [Square.Occupied piece_index])
    | none =>
      match charToDigit (toAsciiLower ch) with
      | none => none
      | some number =>
        (parse_row rest piece_index (piece_position + number)).map
          fun pr => (pr.1, pr.2 ++ List.replicate number Square.Empty)

/-- Modelled from the spec: `split_on` comes from the repository's `utils`
module, which is not under src/ (game.rs does `use crate::utils::*`). Per the
spec the FEN is "a single string with six space-separated fields", consumed
field by field: `split_on(s, sep)` yields the part of `s` before the first
occurrence of `sep` and the part after it; when `sep` does not occur, the
whole string and an empty remainder. -/
def split_on (s : List Char) (sep : Char) : List Char × List Char :=
  match s with
  | [] => ([], [])
  | c :: rest =>
    if c = sep then ([], rest)
    else
      let pr := split_on rest sep
      (c :: pr.1, pr.2)

/-- Rust `str::splitn(n, sep)`: at most `n` parts, the last part keeping any
remaining separators. `read_FEN` uses `n = 8` on the placement field. -/
def splitn (n : Nat) (sep : Char) (s : List Char) : List (List Char) :=
  match n with
  | 0 => []
  | 1 => [s]
  | n + 2 =>
    if s.any (· = sep) then
      let pr := split_on s sep
      pr.1 :: splitn (n + 1) sep pr.2
    else [s]

/-- The `for s in squares { deque_squares.push_front(s); }` loop of
`read_FEN`: each square of the row result, taken front to back, is pushed to
the front of the global deque. -/
def pushAllFront (sqs deque : List Square) : List Square :=
  match sqs with
  | [] => deque
  | s :: rest => pushAllFront rest (s :: deque)

/-- The placement loop of `read_FEN`: for each row, `piece_position -= 8`,
parse the row, append its pieces to the game's piece list (bumping
`piece_index` once per piece) and push its squares onto the front of the
global deque. A `parse_row` panic aborts the whole parse. -/
def placementLoop (rows : List (List Char)) (piece_index piece_position : Nat)
    (pieces : List Piece) (deque : List Square) :
    Option (List Piece × List Square) :=
  match rows with
  | [] => some (pieces, deque)
  | row :: rest =>
    match parse_row row piece_index (piece_position - 8) with
    | none => none
    | some pr =>
      placementLoop rest (piece_index + pr.1.length) (piece_position - 8)
        (pieces ++ pr.1) (pushAllFront pr.2 deque)

/-- The active-color match of `read_FEN`: `"w"`/`"b"`, anything else panics. -/
def parseColor (s : List Char) : Option Color :=
  if s = ['w'] then some Color.White
  else if s = ['b'] then some Color.Black
  else none

/-- The castling loop of `read_FEN`: starts from `NONE` and accumulates one
flag per `K`/`Q`/`k`/`q`, ignores `'-'`, panics on anything else. -/
def parseCastling (s : List Char) (castling : Nat) : Option Nat :=
  match s with
  | [] => some castling
  | ch :: rest =>
    if ch = 'K' then parseCastling rest (castling ||| 1)
    else if ch = 'Q' then parseCastling rest (castling ||| 2)
    else if ch = 'k' then parseCastling rest (castling ||| 4)
    else if ch = 'q' then parseCastling rest (castling ||| 8)
    else if ch = '-' then parseCastling rest castling
    else none

/-- The en-passant match of `read_FEN`: `"-"` means no target, any other
field goes through `position_to_bit` and a codec error panics. -/
def parseEnPassant (s : List Char) : Option (Option Nat) :=
  if s = ['-'] then some none
  else
    match position_to_bit (strBytes s) with
    | .error _ => none
    | .ok bit => some (some bit)

/-- Rust `str::parse::<usize>()` (used for the halfmove clock and the
fullmove number): an optional leading `'+'`, then at least one ASCII decimal
digit, rejecting anything else and values that overflow a 64-bit `usize`. -/
def parseUsize (s : List Char) : Option Nat :=
  let digits := match s with
    | '+' :: rest => rest
    | _ => s
  if digits = [] then none
  else if digits.all (fun c => 48 ≤ c.toNat ∧ c.toNat ≤ 57) then
    let v := digits.foldl (fun acc c => acc * 10 + (c.toNat - 48)) 0
    if v < 2 ^ 64 then some v else none
  else none

/-- The six space-separated fields of a FEN string, peeled off by `split_on`
at each space exactly as the successive `split_on` calls of `read_FEN` do:
placement, active color, castling, en passant, halfmove clock, fullmove
number. -/
def fenFields (fen : List Char) :
    List Char × List Char × List Char × List Char × List Char × List Char :=
  let p1 := split_on fen ' '
  let p2 := split_on p1.2 ' '
  let p3 := split_on p2.2 ' '
  let p4 := split_on p3.2 ' '
  let p5 := split_on p4.2 ' '
  let p6 := split_on p5.2 ' '
  (p1.1, p2.1, p3.1, p4.1, p5.1, p6.1)

/-- `Game::read_FEN(fen: &str) -> Game` from game.rs. The six fields are
peeled off by `split_on` at each space (through `fenFields`); since
`split_on` is pure, the extraction is hoisted above the field parsers
(observationally equal: every `panic!` path collapses to `none`). The
initial field values of the `Game` literal in the source are all overwritten
before the function returns, except when a panic aborts the parse —
modelled by `none`. -/
def read_FEN (fen : List Char) : Option Game :=
  let f := fenFields fen
  match placementLoop (splitn 8 '/' f.1) 0 64 [] [] with
  | none => none
  | some pr =>
    match parseColor f.2.1, parseCastling f.2.2.1 0, parseEnPassant f.2.2.2.1,
        parseUsize f.2.2.2.2.1, parseUsize f.2.2.2.2.2 with
    | some ac, some cr, some ep, some hm, some fm =>
      some ⟨pr.1, pr.2, ac, cr, ep, hm, fm⟩
    | _, _, _, _, _ => none

/-- The standard starting FEN from `Game::initialize` in game.rs. -/
def startFEN : List Char :=
  "rnbqkbnr/pppppppp/8/8/8/8/PPPPPPPP/RNBQKBNR w KQkq - 0 1".data

/-- `Game::initialize()` from game.rs: parse the starting FEN. -/
def Game.initialize : Option Game :=
  read_FEN startFEN

/-- `Piece::to_string` from game.rs: a lowercase letter plus a space,
uppercased when the piece is White. -/
def Piece.to_string (p : Piece) : List Char :=
  let result : List Char :=
    match p.piece_type with
    | .Pawn => ['p', ' ']
    | .Rook => ['r', ' ']
    | .Knight => ['n', ' ']
    | .Bishop => ['b', ' ']
    | .Queen => ['q', ' ']
    | .King => ['k', ' ']
  if p.color = Color.White then result.map toAsciiUpper else result

/-- The renderer loop of `Game::to_string`: walk the enumerated squares,
accumulate tokens into `temp`, and after every eighth square prepend
`temp ++ "\n"` to `board`; at the end prepend the leftover `temp`. Indexing
`self.pieces[*idx]` with a dangling index panics, modelled as `none`. -/
def to_string_loop (pieces : List Piece) :
    List (Nat × Square) → List Char → List Char → Option (List Char)
  | [], board, temp => some (temp ++ board)
  | (i, sq) :: rest, board, temp =>
    match sq with
    | .Empty =>
      let temp := temp ++ index_to_position i
      if (i + 1) % 8 = 0 then
        to_string_loop pieces rest (temp ++ ['\n'] ++ board) []
      else
        to_string_loop pieces rest board temp
    | .Occupied idx =>
      match pieces.get? idx with
      | none => none
      | some p =>
        let temp := temp ++ p.to_string
        if (i + 1) % 8 = 0 then
          to_string_loop pieces rest (temp ++ ['\n'] ++ board) []
        else
          to_string_loop pieces rest board temp

/-- `Game::to_string` from game.rs. -/
def Game.to_string (g : Game) : Option (List Char) :=
  to_string_loop g.pieces g.squares.enum [] []

/-- The `struct Game` of main.rs (the hand-built duplicate): only a piece
list and a square list, no board metadata. -/
structure MainGame where
  pieces : List Piece
  squares : List Square
deriving DecidableEq, Repr

/-- `Game::push_piece_and_sqaure` from main.rs: push a piece with bit
`1 << position`, push `Occupied(index)`, and bump the index. -/
def push_piece_and_sqaure (g : MainGame) (position : Nat) (color : Color)
    (pt : PieceType) (index : Nat) : MainGame × Nat :=
  (⟨g.pieces ++ [⟨(1 <<< position) % 2 ^ 64, color, pt⟩],
    g.squares ++ [Square.Occupied index]⟩, index + 1)

/-- `Game::push_empty_square` from main.rs. -/
def push_empty_square (g : MainGame) : MainGame :=
  ⟨g.pieces, g.squares ++ [Square.Empty]⟩

/-- The rank layout of the eight explicit `push_piece_and_sqaure` calls in
main.rs's `Game::initialize` (offsets 0..7 of a back rank). -/
def backRank : List PieceType :=
  [.Rook, .Knight, .Bishop, .Queen, .King, .Bishop, .Knight, .Rook]

/-- `Game::initialize()` from main.rs: the hand-built default position.
The eight explicit back-rank calls are folded over `backRank`, the `for`
loops over `List.range'`, threading the `&mut piece_index` exactly as the
source does. -/
def mainInitialize : MainGame :=
  let s0 : MainGame × Nat := (⟨[], []⟩, 0)
  let s1 := ((List.range 8).zip backRank).foldl
    (fun gi pr => push_piece_and_sqaure gi.1 pr.1 Color.White pr.2 gi.2) s0
  let s2 := (List.range' 8 8).foldl
    (fun gi i => push_piece_and_sqaure gi.1 i Color.White .Pawn gi.2) s1
  let s3 : MainGame × Nat :=
    ((List.range' 16 32).foldl (fun g _ => push_empty_square g) s2.1, s2.2)
  let s4 := (List.range' 48 8).foldl
    (fun gi i => push_piece_and_sqaure gi.1 i Color.Black .Pawn gi.2) s3
  let s5 := ((List.range 8).zip backRank).foldl
    (fun gi pr => push_piece_and_sqaure gi.1 (pr.1 + 56) Color.Black pr.2 gi.2) s4
  s5.1

/-- The color and piece type occupying square `i` of a board, read through
the `Occupied` back-reference (`none` for an empty square or dangling index). -/
def occupantAt (pieces : List Piece) (squares : List Square) (i : Nat) :
    Option (Color × PieceType) :=
  match squares.getD i Square.Empty with
  | .Empty => none
  | .Occupied j => (pieces.get? j).map fun p => (p.color, p.piece_type)

/-- The piece letters accepted by `parse_row` after `to_ascii_lowercase`. -/
def pieceLetters : List Char := ['r', 'n', 'b', 'q', 'k', 'p']

/-- The number of board squares a placement-row covers: a piece letter
covers one square, a digit `d` covers `d` squares (this is how `parse_row`
advances `piece_position`). -/
def rowWidth : List Char → Nat
  | [] => 0
  | ch :: rest =>
    (match pieceTypeOf (toAsciiLower ch) with
     | some _ => 1
     | none => (charToDigit (toAsciiLower ch)).getD 0) + rowWidth rest

end RustChess

deriving instance DecidableEq for Except

namespace RustChess

/-- Normal form of `position_to_bit` on a two-byte string: the length test
succeeds definitionally and the two byte accesses resolve to `b0` and `b1`. -/
theorem position_to_bit_pair (b0 b1 : Nat) : position_to_bit [b0, b1] =
    if b0 < 97 ∨ 97 + 8 ≤ b0 then .error (invalidColumnMsg b0)
    else
      match byte_to_digit b1 with
      | some d =>
        if d < 1 ∨ 8 < d then .error (invalidRowMsg b1)
        else .ok ((1 <<< ((d - 1) * 8 + (b0 - 97))) % 2 ^ 64)
      | none => .error (invalidRowMsg b1) := rfl

/-- C1: round-trip of the codec. For every index in 0..63,
`position_to_bit (index_to_position index)` returns `Ok (1 <<< index)`, and
`bit_to_position (1 <<< index)` returns `Ok (index_to_position index)` — the
second part checked through the mod-67 perfect-hash table of `bit_scan`. -/
theorem codec_round_trip (index : Nat) (h : index < 64) :
    position_to_bit (strBytes (index_to_position index)) = .ok (1 <<< index) ∧
    bit_to_position (1 <<< index) = .ok (index_to_position index) := by
  have H : ∀ i, i < 64 →
      position_to_bit (strBytes (index_to_position i)) = .ok (1 <<< i) ∧
      bit_to_position (1 <<< i) = .ok (index_to_position i) := by decide
  exact H index h

/-- Witness for C1: the round-trip at the concrete index 37. -/
theorem codec_round_trip_at_37 :
    (37 : Nat) < 64 ∧
    (position_to_bit (strBytes (index_to_position 37)) = .ok (1 <<< 37) ∧
     bit_to_position (1 <<< 37) = .ok (index_to_position 37)) :=
  ⟨by decide, codec_round_trip 37 (by decide)⟩

/-- C2: parsing the standard starting FEN yields 32 pieces, White to move,
all four castling flags (`15`), no en-passant target, halfmove clock 0,
fullmove number 1; square 0 ("a1") holds a White Rook (piece index 24) and
square 63 ("h8") holds a Black Rook (piece index 7). -/
theorem read_fen_start_position :
    (read_FEN startFEN).map (fun g => g.pieces.length) = some 32 ∧
    (read_FEN startFEN).map Game.active_color = some Color.White ∧
    (read_FEN startFEN).map Game.castling_rights = some 15 ∧
    (read_FEN startFEN).map Game.en_passant = some none ∧
    (read_FEN startFEN).map Game.halfmove_clock = some 0 ∧
    (read_FEN startFEN).map Game.fullmove_number = some 1 ∧
    (read_FEN startFEN).map (fun g => g.squares.getD 0 .Empty) =
      some (.Occupied 24) ∧
    (read_FEN startFEN).map (fun g => occupantAt g.pieces g.squares 0) =
      some (some (Color.White, PieceType.Rook)) ∧
    (read_FEN startFEN).map (fun g => g.squares.getD 63 .Empty) =
      some (.Occupied 7) ∧
    (read_FEN startFEN).map (fun g => occupantAt g.pieces g.squares 63) =
      some (some (Color.Black, PieceType.Rook)) := by decide

/-- C4: the recoverable codec errors and the success value, over the byte
view of the input. A string whose byte length is not 2 gets the
invalid-length error; a two-byte string whose first byte is outside
'a'..'h' (97..104) gets the invalid-column error; one whose second byte is
not a digit with value 1..8 gets the invalid-row error; otherwise the result
is `Ok (1 <<< ((digit-1)*8 + (b0 - 97)))`. And `bit_to_position 0` fails
with the "no piece present" error. -/
theorem codec_error_contract :
    (∀ bytes : List Nat, bytes.length ≠ 2 →
      position_to_bit bytes = .error (invalidLengthMsg bytes.length)) ∧
    (∀ b0 b1 : Nat, b0 < 97 ∨ 105 ≤ b0 →
      position_to_bit [b0, b1] = .error (invalidColumnMsg b0)) ∧
    (∀ b0 b1 : Nat, 97 ≤ b0 → b0 < 105 →
      (∀ d, byte_to_digit b1 = some d → d < 1 ∨ 8 < d) →
      position_to_bit [b0, b1] = .error (invalidRowMsg b1)) ∧
    (∀ b0 b1 d : Nat, 97 ≤ b0 → b0 < 105 → byte_to_digit b1 = some d →
      1 ≤ d → d ≤ 8 →
      position_to_bit [b0, b1] = .ok (1 <<< ((d - 1) * 8 + (b0 - 97)))) ∧
    bit_to_position 0 = .error "No piece present!".data := by
  refine ⟨?_, ?_, ?_, ?_, rfl⟩
  · intro bytes h
    unfold position_to_bit
    rw [dif_neg h]
  · intro b0 b1 h
    rw [position_to_bit_pair, if_pos (by omega)]
  · intro b0 b1 h0 h1 hd
    rw [position_to_bit_pair, if_neg (by omega)]
    cases hb : byte_to_digit b1 with
    | none => rfl
    | some d =>
      dsimp only
      rw [if_pos (hd d hb)]
  · intro b0 b1 d h0 h1 hb hd1 hd8
    rw [position_to_bit_pair, if_neg (by omega), hb]
    dsimp only
    rw [if_neg (by omega)]
    have hlt : (1 <<< ((d - 1) * 8 + (b0 - 97))) < 2 ^ 64 := by
      rw [Nat.shiftLeft_eq, one_mul]
      exact Nat.pow_lt_pow_right one_lt_two (by omega)
    rw [Nat.mod_eq_of_lt hlt]

/-- Witness for C4 (third and fourth conjuncts carry hypotheses): the
contract evaluated at the concrete strings "a0" (row error) and "e3"
(success, bit 20). -/
theorem codec_error_contract_at :
    position_to_bit [97, 48] = .error (invalidRowMsg 48) ∧
    position_to_bit [101, 51] = .ok (1 <<< 20) := by
  constructor
  · refine codec_error_contract.2.2.1 97 48 (by omega) (by omega) ?_
    intro d hd
    simp [byte_to_digit] at hd
    omega
  · exact codec_error_contract.2.2.2.1 101 51 3 (by omega) (by omega) rfl
      (by omega) (by omega)

/-- C6: rendering the default position produces exactly this grid — 8 lines
of 16 characters (8 two-character tokens) each followed by a newline, rank 8
first (`r n b q k b n r `, lowercase Black), rank 1 last
(`R N B Q K B N R `, uppercase White), and each empty square of the middle
ranks rendered as its algebraic name. -/
theorem render_default_position :
    Option.bind Game.initialize Game.to_string = some
      ("r n b q k b n r \np p p p p p p p \na6b6c6d6e6f6g6h6\na5b5c5d5e5f5g5h5\na4b4c4d4e4f4g4h4\na3b3c3d3e3f3g3h3\nP P P P P P P P \nR N B Q K B N R \n".data) := by
  decide

/-- C7: `Game::initialize` in game.rs is definitionally the parse of the
standard starting FEN (single construction path), and the superseded
hand-built builder of main.rs agrees with the FEN-parsed default on the
color and piece type occupying each of the 64 squares. -/
theorem initialize_is_read_fen :
    Game.initialize = read_FEN startFEN ∧
    (read_FEN startFEN).map
        (fun g => (List.range 64).map (occupantAt g.pieces g.squares)) =
      some ((List.range 64).map
        (occupantAt mainInitialize.pieces mainInitialize.squares)) :=
  ⟨rfl, by decide⟩

/-- C9: totality of `position_to_bit` — for every byte string whatsoever
(any length, any byte content) it returns `Ok` or `Err`; in the embedding
the two byte accesses live inside the branch guarded by the length-equals-2
test, whose proof discharges the bounds obligations. The same holds for the
byte view of an arbitrary (possibly non-ASCII) string. -/
theorem position_to_bit_total :
    (∀ bytes : List Nat, (∃ v, position_to_bit bytes = .ok v) ∨
      (∃ e, position_to_bit bytes = .error e)) ∧
    (∀ s : List Char, (∃ v, position_to_bit (strBytes s) = .ok v) ∨
      (∃ e, position_to_bit (strBytes s) = .error e)) := by
  constructor
  · intro bytes
    cases h : position_to_bit bytes with
    | ok v => exact .inl ⟨v, rfl⟩
    | error e => exact .inr ⟨e, rfl⟩
  · intro s
    cases h : position_to_bit (strBytes s) with
    | ok v => exact .inl ⟨v, rfl⟩
    | error e => exact .inr ⟨e, rfl⟩

/-- Soundness of `parse_row`: on success the square deque has one entry per
covered board square, and (because squares are pushed to the deque's front)
the REVERSED deque lists them in scan order, so its entry `k` sits at board
position `pp + k`; every `Occupied j` in it points into this row's pieces at
offset `j - pi`, whose position bit matches the board position. -/
theorem parse_row_sound :
    ∀ (row : List Char) (pi pp : Nat) (ps : List Piece) (sqs : List Square),
      parse_row row pi pp = some (ps, sqs) →
      sqs.length = rowWidth row ∧
      ∀ k j, sqs.reverse[k]? = some (Square.Occupied j) →
        pi ≤ j ∧ ∃ p, ps[j - pi]? = some p ∧
          p.position = (1 <<< (pp + k)) % 2 ^ 64 := by
  intro row
  induction row with
  | nil =>
    intro pi pp ps sqs h
    simp only [parse_row, Option.some.injEq, Prod.mk.injEq] at h
    obtain ⟨h1, h2⟩ := h
    subst h1; subst h2
    refine ⟨rfl, ?_⟩
    intro k j hk
    simp at hk
  | cons ch rest ih =>
    intro pi pp ps sqs h
    rw [parse_row] at h
    cases hpt : pieceTypeOf (toAsciiLower ch) with
    | some pt =>
      rw [hpt] at h
      dsimp only at h
      cases hrec : parse_row rest (pi + 1) (pp + 1) with
      | none => rw [hrec] at h; simp at h
      | some pr =>
        rw [hrec] at h
        simp only [Option.map_some', Option.some.injEq, Prod.mk.injEq] at h
        obtain ⟨h1, h2⟩ := h
        subst h1; subst h2
        obtain ⟨ihlen, ihocc⟩ := ih (pi + 1) (pp + 1) pr.1 pr.2 hrec
        constructor
        · simp only [rowWidth, hpt, List.length_append, List.length_singleton]
          omega
        · intro k j hk
          rw [show (pr.2 ++ [Square.Occupied pi]).reverse
              = Square.Occupied pi :: pr.2.reverse by simp] at hk
          cases k with
          | zero =>
            simp only [List.getElem?_cons_zero, Option.some.injEq,
              Square.Occupied.injEq] at hk
            subst hk
            refine ⟨le_refl _, ?_⟩
            rw [show pi - pi = 0 by omega]
            exact ⟨_, List.getElem?_cons_zero, by simp⟩
          | succ k =>
            rw [List.getElem?_cons_succ] at hk
            obtain ⟨hle, p, hp1, hp2⟩ := ihocc k j hk
            refine ⟨by omega, ⟨p, ?_, ?_⟩⟩
            · rw [show j - pi = (j - (pi + 1)) + 1 by omega,
                List.getElem?_cons_succ]
              exact hp1
            · rw [hp2, show pp + 1 + k = pp + (k + 1) by omega]
    | none =>
      rw [hpt] at h
      dsimp only at h
      cases hcd : charToDigit (toAsciiLower ch) with
      | none => rw [hcd] at h; simp at h
      | some n =>
        rw [hcd] at h
        dsimp only at h
        cases hrec : parse_row rest pi (pp + n) with
        | none => rw [hrec] at h; simp at h
        | some pr =>
          rw [hrec] at h
          simp only [Option.map_some', Option.some.injEq, Prod.mk.injEq] at h
          obtain ⟨h1, h2⟩ := h
          subst h1; subst h2
          obtain ⟨ihlen, ihocc⟩ := ih pi (pp + n) pr.1 pr.2 hrec
          constructor
          · simp only [rowWidth, hpt, hcd, Option.getD_some,
              List.length_append, List.length_replicate]
            omega
          · intro k j hk
            rw [List.reverse_append, List.reverse_replicate] at hk
            by_cases hkn : k < n
            · rw [List.getElem?_append_left
                (by simpa using hkn)] at hk
              rw [List.getElem?_replicate] at hk
              simp [hkn] at hk
            · rw [List.getElem?_append_right
                (by simpa using Nat.not_lt.mp hkn)] at hk
              simp only [List.length_replicate] at hk
              obtain ⟨hle, p, hp1, hp2⟩ := ihocc (k - n) j hk
              refine ⟨hle, ⟨p, hp1, ?_⟩⟩
              rw [hp2, show pp + n + (k - n) = pp + k by omega]

/-- `pushAllFront` reverses its first argument onto the second. -/
theorem pushAllFront_eq :
    ∀ sqs deque : List Square, pushAllFront sqs deque = sqs.reverse ++ deque := by
  intro sqs
  induction sqs with
  | nil => intro deque; simp [pushAllFront]
  | cons s rest ih =>
    intro deque
    rw [pushAllFront, ih]
    simp

/-- Soundness of the placement loop when each remaining row covers exactly 8
squares: the accumulated deque (which covers board positions `pp..63` going
in, each entry `m` at position `pp + m`) grows to cover
`pp - 8*rows.length .. 63`, and every `Occupied j` keeps pointing at a piece
whose position bit matches its square — appending the new row's pieces never
disturbs already-assigned indices. -/
theorem placementLoop_sound :
    ∀ (rows : List (List Char)) (pi pp : Nat) (pieces : List Piece)
      (deque : List Square) (P : List Piece) (D : List Square),
      placementLoop rows pi pp pieces deque = some (P, D) →
      pieces.length = pi →
      deque.length + pp = 64 →
      8 * rows.length ≤ pp →
      (∀ row ∈ rows, rowWidth row = 8) →
      (∀ m j, deque[m]? = some (Square.Occupied j) →
        ∃ p, pieces[j]? = some p ∧ p.position = (1 <<< (pp + m)) % 2 ^ 64) →
      D.length + (pp - 8 * rows.length) = 64 ∧
      ∀ m j, D[m]? = some (Square.Occupied j) →
        ∃ p, P[j]? = some p ∧
          p.position = (1 <<< (pp - 8 * rows.length + m)) % 2 ^ 64 := by
  intro rows
  induction rows with
  | nil =>
    intro pi pp pieces deque P D h hlen hcov hroom hw hinv
    simp only [placementLoop, Option.some.injEq, Prod.mk.injEq] at h
    obtain ⟨h1, h2⟩ := h
    subst h1; subst h2
    simp only [List.length_nil, Nat.mul_zero, Nat.sub_zero]
    exact ⟨hcov, hinv⟩
  | cons row rest ih =>
    intro pi pp pieces deque P D h hlen hcov hroom hw hinv
    rw [placementLoop] at h
    cases hrow : parse_row row pi (pp - 8) with
    | none => rw [hrow] at h; simp at h
    | some pr =>
      rw [hrow] at h
      dsimp only at h
      have hw8 : rowWidth row = 8 := hw row (List.mem_cons_self row rest)
      obtain ⟨hplen, hpocc⟩ := parse_row_sound row pi (pp - 8) pr.1 pr.2 hrow
      have hp8 : pr.2.length = 8 := by rw [hplen, hw8]
      have hpp8 : 8 ≤ pp := by
        simp only [List.length_cons] at hroom
        omega
      rw [pushAllFront_eq] at h
      have hmain := ih (pi + pr.1.length) (pp - 8) (pieces ++ pr.1)
        (pr.2.reverse ++ deque) P D h
        (by simp [hlen])
        (by simp only [List.length_append, List.length_reverse]; omega)
        (by simp only [List.length_cons] at hroom; omega)
        (fun r hr => hw r (List.mem_cons_of_mem row hr))
        ?_
      · obtain ⟨hc1, hc2⟩ := hmain
        constructor
        · rw [show pp - 8 - 8 * rest.length
            = pp - 8 * (row :: rest).length by simp [List.length_cons]; omega] at hc1
          exact hc1
        · intro m j hm
          obtain ⟨p, hp1, hp2⟩ := hc2 m j hm
          refine ⟨p, hp1, ?_⟩
          rw [hp2, show pp - 8 - 8 * rest.length
            = pp - 8 * (row :: rest).length by simp [List.length_cons]; omega]
      · intro m j hm
        by_cases hml : m < pr.2.reverse.length
        · rw [List.getElem?_append_left hml] at hm
          obtain ⟨hle, p, hp1, hp2⟩ := hpocc m j hm
          refine ⟨p, ?_, hp2⟩
          rw [List.getElem?_append_right (by omega), hlen]
          exact hp1
        · rw [List.getElem?_append_right (Nat.not_lt.mp hml)] at hm
          simp only [List.length_reverse, hp8] at hm
          obtain ⟨p, hp1, hp2⟩ := hinv (m - 8) j hm
          have hjlt : j < pieces.length := (List.getElem?_eq_some.mp hp1).1
          refine ⟨p, ?_, ?_⟩
          · rw [List.getElem?_append_left hjlt]
            exact hp1
          · rw [hp2]
            simp only [List.length_reverse, hp8] at hml
            rw [show pp + (m - 8) = pp - 8 + m by omega]

/-- When `read_FEN` returns a game, its piece and square lists are exactly
the output of the placement loop on the first space-separated field. -/
theorem read_FEN_squares (fen : List Char) (g : Game)
    (h : read_FEN fen = some g) :
    placementLoop (splitn 8 '/' (fenFields fen).1) 0 64 [] []
      = some (g.pieces, g.squares) := by
  unfold read_FEN at h
  dsimp only at h
  cases hP : placementLoop (splitn 8 '/' (fenFields fen).1) 0 64 [] [] with
  | none => rw [hP] at h; simp at h
  | some pr =>
    rw [hP] at h
    dsimp only at h
    split at h
    · cases h
      rfl
    · cases h

/-- C3: state invariant of parsing. For every FEN whose placement field
splits into eight rows each covering exactly 8 squares, a successful parse
yields a squares list of exactly 64 entries ordered by increasing square
index (a1 first, despite the double reversal through the two deques): every
`Occupied j` at square index `i` has `j` a valid index into the piece list
and `pieces[j].position = 1 <<< i`. -/
theorem fen_parse_invariant (fen : List Char)
    (hrows : (splitn 8 '/' (fenFields fen).1).length = 8)
    (hw : ∀ row ∈ splitn 8 '/' (fenFields fen).1, rowWidth row = 8) :
    (read_FEN fen).elim True fun g =>
      g.squares.length = 64 ∧
      ∀ i j, g.squares[i]? = some (Square.Occupied j) →
        j < g.pieces.length ∧ ∃ p, g.pieces[j]? = some p ∧
          p.position = 1 <<< i := by
  cases hr : read_FEN fen with
  | none => exact trivial
  | some g =>
    have hP := read_FEN_squares fen g hr
    have hmain := placementLoop_sound (splitn 8 '/' (fenFields fen).1)
      0 64 [] [] g.pieces g.squares hP rfl (by simp) (by rw [hrows]) hw
      (by intro m j hm; simp at hm)
    obtain ⟨hc1, hc2⟩ := hmain
    rw [hrows] at hc1 hc2
    simp only [Option.elim]
    have hlen : g.squares.length = 64 := by omega
    refine ⟨hlen, ?_⟩
    intro i j hij
    have hi : i < 64 := by
      have := (List.getElem?_eq_some.mp hij).1
      omega
    obtain ⟨p, hp1, hp2⟩ := hc2 i j hij
    refine ⟨(List.getElem?_eq_some.mp hp1).1, p, hp1, ?_⟩
    rw [hp2]
    simp only [show (64 : Nat) - 8 * 8 = 0 by omega, Nat.zero_add]
    have : (1 <<< i) < 2 ^ 64 := by
      rw [Nat.shiftLeft_eq, one_mul]
      exact Nat.pow_lt_pow_right one_lt_two hi
    exact Nat.mod_eq_of_lt this

/-- Witness for C3: the invariant instantiated at the standard starting FEN,
whose placement field does split into eight rows of width 8. -/
theorem fen_parse_invariant_at_start :
    (read_FEN startFEN).elim True fun g =>
      g.squares.length = 64 ∧
      ∀ i j, g.squares[i]? = some (Square.Occupied j) →
        j < g.pieces.length ∧ ∃ p, g.pieces[j]? = some p ∧
          p.position = 1 <<< i :=
  fen_parse_invariant startFEN (by decide) (by decide)

/-- The five characters the castling loop of `read_FEN` accepts. -/
def castlingChars : List Char := ['K', 'Q', 'k', 'q', '-']

/-- Spec-side predicate, from the claim's words as amended: a
piece-placement character that is neither one of the piece letters
r/n/b/q/k/p (either case) nor a decimal digit (the code accepts any digit
0-9 — `'0'` contributes zero squares — not only 1-8 as the claim stated). -/
def badPlacementChar (ch : Char) : Bool :=
  !(pieceLetters.contains (toAsciiLower ch)) &&
    !(charToDigit (toAsciiLower ch)).isSome

/-- Spec-side predicate, from the claim's words (amended on the digit
range): the input contains a structural violation — a bad placement
character, an active-color token other than "w"/"b", a castling character
other than K/Q/k/q/'-', an en-passant field neither "-" nor accepted by the
position codec, or a halfmove/fullmove field that does not parse. -/
def fenViolation (fen : List Char) : Bool :=
  let f := fenFields fen
  ((splitn 8 '/' f.1).any fun row => row.any badPlacementChar) ||
  (!(f.2.1 == ['w']) && !(f.2.1 == ['b'])) ||
  (f.2.2.1.any fun ch => !(castlingChars.contains ch)) ||
  (!(f.2.2.2.1 == ['-']) && !(position_to_bit (strBytes f.2.2.2.1)).isOk) ||
  (parseUsize f.2.2.2.2.1).isNone || (parseUsize f.2.2.2.2.2).isNone

/-- The original claim's bad-placement-character predicate, verbatim:
neither a digit 1-8 nor a piece letter (either case). -/
def badPlacementCharClaimed (ch : Char) : Bool :=
  !(pieceLetters.contains (toAsciiLower ch)) &&
    !((charToDigit ch).isSome &&
      decide (1 ≤ (charToDigit ch).getD 0) && decide ((charToDigit ch).getD 0 ≤ 8))

/-- `pieceTypeOf` succeeds exactly on the piece letters. -/
theorem pieceTypeOf_isSome_iff (c : Char) :
    (pieceTypeOf c).isSome = pieceLetters.contains c := by
  unfold pieceTypeOf pieceLetters
  split_ifs with h1 h2 h3 h4 h5 h6 <;> simp_all

/-- The active-color match panics exactly off "w"/"b". -/
theorem parseColor_none_iff (s : List Char) :
    parseColor s = none ↔ (!(s == ['w']) && !(s == ['b'])) = true := by
  unfold parseColor
  split_ifs with h1 h2 <;> simp_all

/-- The castling loop panics exactly when some character is outside
K/Q/k/q/'-', whatever flags are already accumulated. -/
theorem parseCastling_none_iff :
    ∀ (s : List Char) (acc : Nat), parseCastling s acc = none ↔
      (s.any fun ch => !(castlingChars.contains ch)) = true := by
  intro s
  induction s with
  | nil => intro acc; simp [parseCastling]
  | cons ch rest ih =>
    intro acc
    rw [parseCastling]
    split_ifs with h1 h2 h3 h4 h5 <;> simp_all [castlingChars]

/-- The en-passant match panics exactly when the field is not "-" and the
position codec rejects it. -/
theorem parseEnPassant_none_iff (s : List Char) :
    parseEnPassant s = none ↔
      (!(s == ['-']) && !(position_to_bit (strBytes s)).isOk) = true := by
  unfold parseEnPassant
  split_ifs with h1
  · simp [h1]
  · cases hb : position_to_bit (strBytes s) <;>
      simp_all [Except.isOk, Except.toBool]

/-- `parse_row` panics exactly when the row contains a character that is
neither a piece letter nor a decimal digit, whatever the running indices. -/
theorem parse_row_none_iff :
    ∀ (row : List Char) (pi pp : Nat), parse_row row pi pp = none ↔
      (row.any badPlacementChar) = true := by
  intro row
  induction row with
  | nil => intro pi pp; simp [parse_row]
  | cons ch rest ih =>
    intro pi pp
    rw [parse_row]
    cases hpt : pieceTypeOf (toAsciiLower ch) with
    | some pt =>
      have hc : toAsciiLower ch ∈ pieceLetters := by
        have := pieceTypeOf_isSome_iff (toAsciiLower ch)
        rw [hpt] at this
        simpa using this.symm
      dsimp only
      simp [Option.map_eq_none', ih, badPlacementChar, hc]
    | none =>
      have hc : toAsciiLower ch ∉ pieceLetters := by
        have := pieceTypeOf_isSome_iff (toAsciiLower ch)
        rw [hpt] at this
        simpa using this.symm
      dsimp only
      cases hcd : charToDigit (toAsciiLower ch) with
      | none => simp [badPlacementChar, hc, hcd]
      | some n => simp [Option.map_eq_none', ih, badPlacementChar, hc, hcd]

/-- The placement loop panics exactly when some row has a bad character. -/
theorem placementLoop_none_iff :
    ∀ (rows : List (List Char)) (pi pp : Nat) (pieces : List Piece)
      (deque : List Square), placementLoop rows pi pp pieces deque = none ↔
      (rows.any fun row => row.any badPlacementChar) = true := by
  intro rows
  induction rows with
  | nil => intro pi pp pieces deque; simp [placementLoop]
  | cons row rest ih =>
    intro pi pp pieces deque
    rw [placementLoop]
    cases hrow : parse_row row pi (pp - 8) with
    | none =>
      have := (parse_row_none_iff row pi (pp - 8)).mp hrow
      simp [this]
    | some pr =>
      have hne : ¬ (row.any badPlacementChar) = true := by
        intro hcontra
        rw [← parse_row_none_iff row pi (pp - 8)] at hcontra
        rw [hrow] at hcontra
        cases hcontra
      dsimp only
      simp [ih, hne]

/-- `read_FEN` aborts exactly when one of its six field parsers does. -/
theorem read_FEN_none_cases (fen : List Char) :
    read_FEN fen = none ↔
      placementLoop (splitn 8 '/' (fenFields fen).1) 0 64 [] [] = none ∨
      parseColor (fenFields fen).2.1 = none ∨
      parseCastling (fenFields fen).2.2.1 0 = none ∨
      parseEnPassant (fenFields fen).2.2.2.1 = none ∨
      parseUsize (fenFields fen).2.2.2.2.1 = none ∨
      parseUsize (fenFields fen).2.2.2.2.2 = none := by
  unfold read_FEN
  dsimp only
  cases placementLoop (splitn 8 '/' (fenFields fen).1) 0 64 [] [] <;>
    cases parseColor (fenFields fen).2.1 <;>
    cases parseCastling (fenFields fen).2.2.1 0 <;>
    cases parseEnPassant (fenFields fen).2.2.2.1 <;>
    cases parseUsize (fenFields fen).2.2.2.2.1 <;>
    cases parseUsize (fenFields fen).2.2.2.2.2 <;> simp

/-- C5 (amended): `read_FEN` terminates abnormally exactly when the input
contains a structural violation — where the placement-character clause reads
"neither a decimal digit 0-9 nor a piece letter" (the claim's "digit 1-8"
is amended: `to_digit(10)` also accepts '0' and '9', see the
counterexample). -/
theorem read_fen_fatal_iff_amended (fen : List Char) :
    read_FEN fen = none ↔ fenViolation fen = true := by
  rw [read_FEN_none_cases, placementLoop_none_iff, parseColor_none_iff,
    parseCastling_none_iff, parseEnPassant_none_iff]
  unfold fenViolation
  dsimp only
  rw [← Option.isNone_iff_eq_none, ← Option.isNone_iff_eq_none]
  simp only [Bool.or_eq_true, Bool.and_eq_true]
  tauto

/-- Counterexample to C5 as stated: the placements `"08/…"` and `"9/…"`
each contain a character that is neither a digit 1-8 nor a piece letter
(`'0'` and `'9'`), yet `read_FEN` returns normally instead of terminating
abnormally. -/
theorem read_fen_fatal_claim_counterexample :
    ((fenFields "08/pppppppp/8/8/8/8/PPPPPPPP/RNBQKBNR w KQkq - 0 1".data).1.any
      badPlacementCharClaimed) = true ∧
    read_FEN "08/pppppppp/8/8/8/8/PPPPPPPP/RNBQKBNR w KQkq - 0 1".data ≠ none ∧
    ((fenFields "9/pppppppp/8/8/8/8/PPPPPPPP/RNBQKBNR w KQkq - 0 1".data).1.any
      badPlacementCharClaimed) = true ∧
    read_FEN "9/pppppppp/8/8/8/8/PPPPPPPP/RNBQKBNR w KQkq - 0 1".data ≠ none := by
  decide

/-- C10: the parser does not validate square coverage — the placement
`"7/8/8/8/8/8/8/8"` covers only 63 squares, yet `read_FEN` returns normally,
with a squares list of 63 (< 64) entries. -/
theorem read_fen_no_coverage_check :
    ∃ (fen : List Char) (n : Nat),
      ((splitn 8 '/' (fenFields fen).1).map rowWidth).sum < 64 ∧
      read_FEN fen ≠ none ∧
      (read_FEN fen).map (fun g => g.squares.length) = some n ∧ n < 64 :=
  ⟨"7/8/8/8/8/8/8/8 w KQkq - 0 1".data, 63, by decide⟩



/-- `split_on` splits exactly at the first separator appended after a
separator-free prefix. -/
theorem split_on_append (a b : List Char) (sep : Char) (ha : sep ∉ a) :
    split_on (a ++ sep :: b) sep = (a, b) := by
  induction a with
  | nil => simp [split_on]
  | cons c rest ih =>
    rw [List.cons_append, split_on]
    have hc : ¬ c = sep := fun h => ha (h ▸ List.mem_cons_self c rest)
    rw [if_neg hc]
    have := ih (fun h => ha (List.mem_cons_of_mem c h))
    simp [this]

/-- `split_on` on a separator-free string yields the string and an empty
remainder. -/
theorem split_on_eq_self (s : List Char) (sep : Char) (h : sep ∉ s) :
    split_on s sep = (s, []) := by
  induction s with
  | nil => simp [split_on]
  | cons c rest ih =>
    rw [split_on]
    have hc : ¬ c = sep := fun hx => h (hx ▸ List.mem_cons_self c rest)
    rw [if_neg hc]
    have := ih (fun hx => h (List.mem_cons_of_mem c hx))
    simp [this]

/-- A FEN assembled from six space-free fields decomposes into exactly
those fields. -/
theorem fenFields_of_fields (p c cr ep hm fm : List Char)
    (hp : ' ' ∉ p) (hc : ' ' ∉ c) (hcr : ' ' ∉ cr) (hep : ' ' ∉ ep)
    (hhm : ' ' ∉ hm) (hfm : ' ' ∉ fm) :
    fenFields (p ++ ' ' :: (c ++ ' ' :: (cr ++ ' ' :: (ep ++ ' ' :: (hm ++ ' ' :: fm)))))
      = (p, c, cr, ep, hm, fm) := by
  unfold fenFields
  rw [split_on_append _ _ _ hp]
  dsimp only
  rw [split_on_append _ _ _ hc]
  dsimp only
  rw [split_on_append _ _ _ hcr]
  dsimp only
  rw [split_on_append _ _ _ hep]
  dsimp only
  rw [split_on_append _ _ _ hhm]
  dsimp only
  rw [split_on_eq_self _ _ hfm]

/-- C8: the en-passant field contract. For every otherwise well-formed
six-field FEN (space-free fields; placement, color, castling and the two
counters parse), if the en-passant field is "-" the parsed game has no
en-passant target; if the field is accepted by `position_to_bit` the target
is exactly that bit; otherwise the parse terminates abnormally. -/
theorem en_passant_contract (p c cr ep hm fm : List Char)
    (hp : ' ' ∉ p) (hc : ' ' ∉ c) (hcr : ' ' ∉ cr) (hep : ' ' ∉ ep)
    (hhm : ' ' ∉ hm) (hfm : ' ' ∉ fm)
    (hpl : (placementLoop (splitn 8 '/' p) 0 64 [] []).isSome = true)
    (hcol : (parseColor c).isSome = true)
    (hcas : (parseCastling cr 0).isSome = true)
    (hhmv : (parseUsize hm).isSome = true)
    (hfmv : (parseUsize fm).isSome = true) :
    (ep = ['-'] →
      (read_FEN (p ++ ' ' :: (c ++ ' ' :: (cr ++ ' ' :: (ep ++ ' ' :: (hm ++ ' ' :: fm)))))).map
        Game.en_passant = some none) ∧
    (∀ bit, position_to_bit (strBytes ep) = .ok bit →
      (read_FEN (p ++ ' ' :: (c ++ ' ' :: (cr ++ ' ' :: (ep ++ ' ' :: (hm ++ ' ' :: fm)))))).map
        Game.en_passant = some (some bit)) ∧
    (ep ≠ ['-'] → (position_to_bit (strBytes ep)).isOk = false →
      read_FEN (p ++ ' ' :: (c ++ ' ' :: (cr ++ ' ' :: (ep ++ ' ' :: (hm ++ ' ' :: fm))))) = none) := by
  obtain ⟨pr, hpr⟩ := Option.isSome_iff_exists.mp hpl
  obtain ⟨ac, hac⟩ := Option.isSome_iff_exists.mp hcol
  obtain ⟨crv, hcrv⟩ := Option.isSome_iff_exists.mp hcas
  obtain ⟨hmv, hhmvv⟩ := Option.isSome_iff_exists.mp hhmv
  obtain ⟨fmv, hfmvv⟩ := Option.isSome_iff_exists.mp hfmv
  have hf := fenFields_of_fields p c cr ep hm fm hp hc hcr hep hhm hfm
  have hread : ∀ e, parseEnPassant ep = some e →
      read_FEN (p ++ ' ' :: (c ++ ' ' :: (cr ++ ' ' :: (ep ++ ' ' :: (hm ++ ' ' :: fm)))))
        = some ⟨pr.1, pr.2, ac, crv, e, hmv, fmv⟩ := by
    intro e he
    unfold read_FEN
    rw [hf]
    dsimp only
    rw [hpr, hac, hcrv, he, hhmvv, hfmvv]
  have hreadn : parseEnPassant ep = none →
      read_FEN (p ++ ' ' :: (c ++ ' ' :: (cr ++ ' ' :: (ep ++ ' ' :: (hm ++ ' ' :: fm)))))
        = none := by
    intro he
    unfold read_FEN
    rw [hf]
    dsimp only
    rw [hpr, hac, hcrv, he, hhmvv, hfmvv]
  refine ⟨?_, ?_, ?_⟩
  · intro heq
    have he : parseEnPassant ep = some none := by
      rw [parseEnPassant, if_pos heq]
    rw [hread none he]
    rfl
  · intro bit hok
    have hne : ¬ ep = ['-'] := by
      intro heq
      rw [heq, show position_to_bit (strBytes ['-'])
        = .error (invalidLengthMsg 1) from rfl] at hok
      cases hok
    have he : parseEnPassant ep = some (some bit) := by
      rw [parseEnPassant, if_neg hne, hok]
    rw [hread (some bit) he]
    rfl
  · intro hne hnok
    have he : parseEnPassant ep = none := by
      rw [parseEnPassant, if_neg hne]
      cases hb : position_to_bit (strBytes ep) with
      | error e => rfl
      | ok v => rw [hb] at hnok; cases hnok
    exact hreadn he

/-- Witness for C8: a standard FEN whose en-passant field is "e3" parses
with en-passant target `1 <<< 20`. -/
theorem en_passant_contract_at :
    (read_FEN ("rnbqkbnr/pppppppp/8/8/8/8/PPPPPPPP/RNBQKBNR".data ++ ' ' ::
        ("w".data ++ ' ' :: ("KQkq".data ++ ' ' :: ("e3".data ++ ' ' ::
        ("0".data ++ ' ' :: "1".data)))))).map Game.en_passant
      = some (some (1 <<< 20)) :=
  (en_passant_contract "rnbqkbnr/pppppppp/8/8/8/8/PPPPPPPP/RNBQKBNR".data
    "w".data "KQkq".data "e3".data "0".data "1".data
    (by decide) (by decide) (by decide) (by decide) (by decide) (by decide)
    (by decide) (by decide) (by decide) (by decide) (by decide)).2.1
    (1 <<< 20) (by decide)

end RustChess
